import Mathlib

/-!
Shallow embedding of the CSV-to-JSON conversion pipeline (src/src/App.jsx)
and verification of its specification claims.

Modelling conventions:
* JavaScript values flowing through the pipeline are modelled by the
  inductive type `Value` (null, boolean, number, string, array, object).
  Objects are ordered association lists; real JavaScript objects never
  carry duplicate keys, so theorems about objects may assume key lists
  are duplicate-free where that matters.
* JavaScript numbers are modelled by `JsNum`: NaN, signed Infinity, or an
  exact rational.  Decimal string-to-number conversion is exact (no
  binary rounding); overflow beyond the double range (absolute value at
  least 2^1024) yields Infinity, mirroring `Number`'s overflow.  Claims
  verified here never exercise rounding-sensitive inputs.
* String primitives (`trim`, `toLowerCase`, `startsWith`) are modelled
  over `String.data` character lists, matching their ASCII behaviour.
* `JSON.parse` is a platform builtin, not part of the repository; the
  converter takes it as an explicit parameter `jsonParse : String →
  Option Value`, where `none` models a thrown parse error.
-/

namespace CsvJson

/-! ### String helpers (models of the JavaScript string builtins used) -/

/-- Model of the whitespace class used by JavaScript `String.prototype.trim`
(ASCII whitespace plus the common Unicode blanks that matter here). -/
def jsWs (c : Char) : Bool :=
  c = ' ' || c = '\t' || c = '\n' || c = '\r' || c = '\x0b' || c = '\x0c' || c = ' '

/-- Trim `jsWs` characters from both ends of a character list. -/
def trimChars (cs : List Char) : List Char :=
  ((cs.dropWhile jsWs).reverse.dropWhile jsWs).reverse

/-- Model of `String.prototype.trim`. -/
def jsTrim (s : String) : String := String.mk (trimChars s.data)

/-- Model of `String.prototype.toLowerCase` (ASCII case folding). -/
def jsToLower (s : String) : String := String.mk (s.data.map Char.toLower)

/-! ### JavaScript numbers -/

/-- A JavaScript number: NaN, a signed infinity, or a finite value
modelled as an exact rational. -/
inductive JsNum where
  | nan
  | inf (neg : Bool)
  | val (q : ℚ)
deriving Repr, DecidableEq

/-- Fold a digit list into a natural number. -/
def digitsToNat (cs : List Char) : ℕ :=
  cs.foldl (fun a c => a * 10 + (c.toNat - '0'.toNat)) 0

/-- Parse the exponent suffix of a decimal literal: empty, or `e`/`E`
followed by an optional sign and at least one digit, consuming all input. -/
def parseExpPart : List Char → Option ℤ
  | [] => some 0
  | e :: t =>
    if e = 'e' || e = 'E' then
      let (esign, t2) : ℤ × List Char :=
        match t with
        | '+' :: u => (1, u)
        | '-' :: u => (-1, u)
        | _ => (1, t)
      let (ed, rest) := t2.span Char.isDigit
      if ed.isEmpty || !rest.isEmpty then none else some (esign * (digitsToNat ed : ℤ))
    else none

/-- Parse a full decimal/scientific numeric literal (optional sign,
`digits[.digits]` or `.digits`, optional exponent) to its exact rational
value.  Hexadecimal/octal/binary `Number` literals are not modelled; no
claim reaches them. -/
def parseJsDecimal (cs : List Char) : Option ℚ :=
  let (neg, cs1) : Bool × List Char :=
    match cs with
    | '-' :: t => (true, t)
    | '+' :: t => (false, t)
    | _ => (false, cs)
  let (ip, r1) := cs1.span Char.isDigit
  let mantAndRest : Option (ℚ × List Char) :=
    match r1 with
    | '.' :: r2 =>
      let (fp, r3) := r2.span Char.isDigit
      if ip.isEmpty && fp.isEmpty then none
      else some ((digitsToNat ip : ℚ) + (digitsToNat fp : ℚ) / (10 : ℚ) ^ fp.length, r3)
    | _ => if ip.isEmpty then none else some ((digitsToNat ip : ℚ), r1)
  match mantAndRest with
  | none => none
  | some (m, rest) =>
    match parseExpPart rest with
    | none => none
    | some e =>
      let v := m * (10 : ℚ) ^ e
      some (if neg then -v else v)

/-- The smallest magnitude at which the double type overflows to
Infinity (the model uses the clean bound 2^1024). -/
def doubleLimit : ℚ := 2 ^ 1024

/-- Clamp an exact rational into a JavaScript number: overflow beyond the
double range becomes signed Infinity. -/
def ratToJsNum (q : ℚ) : JsNum :=
  if q ≥ doubleLimit then JsNum.inf false
  else if q ≤ -doubleLimit then JsNum.inf true
  else JsNum.val q

/-- Model of `Number(string)`: trim, empty means 0, the `Infinity`
spellings, else a decimal literal, else NaN. -/
def jsStringToNumber (s : String) : JsNum :=
  let t := jsTrim s
  if t = "" then JsNum.val 0
  else if t = "Infinity" || t = "+Infinity" then JsNum.inf false
  else if t = "-Infinity" then JsNum.inf true
  else
    match parseJsDecimal t.data with
    | some q => ratToJsNum q
    | none => JsNum.nan

/-- Decision procedure for the source regex
`^-?\d+(?:\.\d+)?(?:[eE][+-]?\d+)?$` from `inferScalar`. -/
def matchNumLit (cs : List Char) : Bool :=
  let cs1 : List Char :=
    match cs with
    | '-' :: t => t
    | _ => cs
  let (ip, r1) := cs1.span Char.isDigit
  if ip.isEmpty then false
  else
    let afterFrac : Option (List Char) :=
      match r1 with
      | '.' :: t =>
        let (fp, r) := t.span Char.isDigit
        if fp.isEmpty then none else some r
      | _ => some r1
    match afterFrac with
    | none => false
    | some r =>
      match r with
      | [] => true
      | e :: t =>
        if e = 'e' || e = 'E' then
          let t2 : List Char :=
            match t with
            | '+' :: u => u
            | '-' :: u => u
            | _ => t
          let (ed, rest) := t2.span Char.isDigit
          !ed.isEmpty && rest.isEmpty
        else false

/-- Count the multiplicity of a prime factor with explicit fuel (fuel
`n` always suffices for an argument of size `n`). -/
def countFactorAux : ℕ → ℕ → ℕ → ℕ
  | 0, _, _ => 0
  | fuel + 1, p, n => if 1 < p ∧ 0 < n ∧ n % p = 0 then countFactorAux fuel p (n / p) + 1 else 0

/-- Multiplicity of `p` in `n`. -/
def countFactor (p n : ℕ) : ℕ := countFactorAux n p n

/-- Render a rational as a JavaScript-style decimal numeral.  Exact for
integers and for denominators of the form 2^a*5^b (the only ones decimal
literals produce); other denominators, unreachable from pipeline inputs,
fall back to a fraction spelling.  Exponential display for extreme
magnitudes is not modelled; no claim reaches it. -/
def qToJsString (q : ℚ) : String :=
  let sign := if q < 0 then "-" else ""
  let a := q.num.natAbs
  let d := q.den
  if d = 1 then sign ++ toString a
  else
    let e2 := countFactor 2 d
    let e5 := countFactor 5 d
    if 2 ^ e2 * 5 ^ e5 = d then
      let k := max e2 e5
      let m := a * 10 ^ k / d
      let ds := (toString m).data
      let ds := if ds.length ≤ k then List.replicate (k + 1 - ds.length) '0' ++ ds else ds
      sign ++ String.mk (ds.take (ds.length - k)) ++ "." ++ String.mk (ds.drop (ds.length - k))
    else sign ++ toString a ++ "/" ++ toString d

/-- Render a JavaScript number as a string (model of `String(number)`). -/
def jsNumToString : JsNum → String
  | JsNum.nan => "NaN"
  | JsNum.inf neg => if neg then "-Infinity" else "Infinity"
  | JsNum.val q => qToJsString q

/-! ### The Value tree -/

/-- A JavaScript value as it flows through the pipeline: null, boolean,
number, string, array, or object (an ordered list of key/value fields). -/
inductive Value where
  | vnull
  | vbool (b : Bool)
  | vnum (n : JsNum)
  | vstr (s : String)
  | varr (elems : List Value)
  | vobj (fields : List (String × Value))
deriving Repr

open Value

/-- JavaScript truthiness of a value. -/
def truthy : Value → Bool
  | vnull => false
  | vbool b => b
  | vnum JsNum.nan => false
  | vnum (JsNum.inf _) => true
  | vnum (JsNum.val q) => decide (q ≠ 0)
  | vstr s => decide (s ≠ "")
  | varr _ => true
  | vobj _ => true

/-- Values of `typeof v === 'object'` (objects, arrays, and null). -/
def jsTypeofObject : Value → Bool
  | vobj _ => true
  | varr _ => true
  | vnull => true
  | _ => false

/-- Model of `String(v)` for the payload coercions in `unmarshallAV`.
Arrays render by comma-joining their elements with null rendered empty,
objects render as `[object Object]`. -/
def jsString : Value → String
  | vnull => "null"
  | vbool b => if b then "true" else "false"
  | vnum n => jsNumToString n
  | vstr s => s
  | varr xs => jsArrJoin xs
  | vobj _ => "[object Object]"
where
  /-- Model of `Array.prototype.join(",")` as used by array-to-string
  coercion: null elements render as the empty string. -/
  jsArrJoin : List Value → String
  | [] => ""
  | x :: t =>
    (match x with
     | vnull => ""
     | y => jsString y) ++
    (match t with
     | [] => ""
     | _ :: _ => "," ++ jsArrJoin t)

/-- Model of `Number(v)`: the standard ToNumber coercion on the value
shapes the pipeline can produce. -/
def jsToNumber : Value → JsNum
  | vnull => JsNum.val 0
  | vbool b => JsNum.val (if b then 1 else 0)
  | vnum n => n
  | vstr s => jsStringToNumber s
  | varr xs => jsStringToNumber (jsString (varr xs))
  | vobj fields => jsStringToNumber (jsString (vobj fields))

/-- First field with the given key (model of JavaScript property access
`obj[key]`, `none` standing for undefined). -/
def getField : List (String × Value) → String → Option Value
  | [], _ => none
  | (k, v) :: t, key => if k = key then some v else getField t key

/-- Model of the JavaScript assignment `obj[k] = v` on an ordered object:
overwrite in place if the key exists, else append. -/
def jsSet : List (String × Value) → String → Value → List (String × Value)
  | [], k, v => [(k, v)]
  | (k1, v1) :: t, k, v => if k1 = k then (k1, v) :: t else (k1, v1) :: jsSet t k v

/-- Build an object by successive JavaScript assignments (the
`const out = {}; for (...) out[k] = ...` idiom). -/
def buildObj (l : List (String × Value)) : List (String × Value) :=
  l.foldl (fun acc kv => jsSet acc kv.1 kv.2) []

/-- Model of `Object.values(obj || {})`: field values of an object,
elements of an array, the indexed characters of a string, and nothing
for the remaining primitives. -/
def jsValues : Value → List Value
  | vobj fields => fields.map Prod.snd
  | varr xs => xs
  | vstr s => s.data.map fun c => vstr (String.mk [c])
  | _ => []

/-! ### Classifier and unmarshaller (source lines 83-145) -/

/-- Source: `looksLikeJSON` — strings whose trimmed form starts with a
brace or bracket, or with a quote immediately followed by one. -/
def looksLikeJSON : Value → Bool
  | vstr s =>
    match (jsTrim s).data with
    | [] => false
    | c :: rest =>
      c = '{' || c = '[' ||
        (c = '"' &&
          (match rest with
           | c2 :: _ => c2 = '{' || c2 = '['
           | [] => false))
  | _ => false

/-- Source: the fixed `AV_KEYS` tag set. -/
def AV_KEYS : List String := ["S", "N", "BOOL", "NULL", "M", "L", "SS", "NS", "BS", "B"]

/-- Source: `isAttributeValue` — a non-array object with exactly one own
key, drawn from `AV_KEYS`. -/
def isAttributeValue : Value → Bool
  | vobj [(k, _)] => AV_KEYS.contains k
  | _ => false

/-- Source: `maybeMapOfAVs` — non-empty `Object.values` all of which are
AttributeValues. -/
def maybeMapOfAVs (obj : Value) : Bool :=
  let entries := jsValues obj
  if entries.isEmpty then false else entries.all isAttributeValue

theorem getField_sizeOf_lt {fields : List (String × Value)} {key : String} {m : Value}
    (h : getField fields key = some m) : sizeOf m < sizeOf fields := by
  induction fields with
  | nil => simp [getField] at h
  | cons kv t ih =>
    obtain ⟨k, v⟩ := kv
    simp only [getField] at h
    split at h
    · cases h; simp; omega
    · have h2 := ih h
      have h3 : sizeOf t < sizeOf ((k, v) :: t) := by simp
      omega

theorem sizeOf_snd_lt_vobj {fields : List (String × Value)} {kv : String × Value}
    (h : kv ∈ fields) : sizeOf kv.2 < sizeOf (Value.vobj fields) := by
  have h1 : sizeOf kv < sizeOf fields := List.sizeOf_lt_of_mem h
  have h2 : sizeOf kv.2 < sizeOf kv := by
    obtain ⟨k, v⟩ := kv; simp
  simp; omega

theorem sizeOf_mem_lt_varr {xs : List Value} {x : Value}
    (h : x ∈ xs) : sizeOf x < sizeOf (Value.varr xs) := by
  have h1 : sizeOf x < sizeOf xs := List.sizeOf_lt_of_mem h
  simp; omega

theorem sizeOf_payload_lt {t : String} {v : Value} {rest : List (String × Value)} :
    sizeOf v < sizeOf (Value.vobj ((t, v) :: rest)) :=
  sizeOf_snd_lt_vobj (show (t, v) ∈ (t, v) :: rest from List.mem_cons_self _ _)

mutual

/-- Source: `unmarshallAV` — decode one AttributeValue by its tag.  It is
invoked only on values passing `isAttributeValue`; other shapes return
unchanged (the source would read an undefined tag there). -/
def unmarshallAV (av : Value) : Value :=
  match av with
  | vobj ((t, v) :: restFields) =>
    match t with
    | "S" => vstr (jsString v)
    | "N" => vnum (jsToNumber v)
    | "BOOL" => vbool (truthy v)
    | "NULL" => vnull
    | "SS" =>
      (match v with
       | varr xs => varr (xs.map fun x => vstr (jsString x))
       | _ => varr [])
    | "NS" =>
      (match v with
       | varr xs => varr (xs.map fun x => vnum (jsToNumber x))
       | _ => varr [])
    | "L" =>
      (match v with
       | varr xs => varr (unmarshallList xs)
       | _ => varr [])
    | "M" => unmarshallMap v
    | _ => v
  | _ => av
termination_by (sizeOf av, 1)
decreasing_by
  · have h1 : sizeOf (Value.varr xs) < sizeOf (Value.vobj (("L", Value.varr xs) :: restFields)) :=
      sizeOf_payload_lt
    have h2 : sizeOf xs < sizeOf (Value.varr xs) := by simp
    apply Prod.Lex.left; omega
  · have h3 : sizeOf v < sizeOf (Value.vobj (("M", v) :: restFields)) := sizeOf_payload_lt
    apply Prod.Lex.left; omega

/-- Source: `unmarshallMap` — rebuild an object from
`Object.entries(obj || {})` with every value recursively unmarshalled.
For a string payload the entries are its indexed characters, on which
`unmarshallDeep` is the identity and is therefore not re-invoked. -/
def unmarshallMap (obj : Value) : Value :=
  match obj with
  | vobj fields => vobj (buildObj (unmarshallFields fields))
  | varr xs =>
    vobj (buildObj ((unmarshallList xs).enum.map fun p => (toString p.1, p.2)))
  | vstr s =>
    vobj (buildObj (s.data.enum.map fun p => (toString p.1, vstr (String.mk [p.2]))))
  | _ => vobj []
termination_by (sizeOf obj, 0)
decreasing_by
  · have h1 : sizeOf fields < sizeOf (Value.vobj fields) := by simp
    apply Prod.Lex.left; omega
  · have h1 : sizeOf xs < sizeOf (Value.varr xs) := by simp
    apply Prod.Lex.left; omega

/-- Source: `unmarshallDeep` — full recursive unmarshalling with its
layered dispatch: AttributeValue, array, object (truthy `M` entry, then
implicit attribute-map, then generic recursion), scalar.  The source
computes `unmarshallAV({M: value.M})` in the `M` branch; that call
equals `unmarshallMap value.M` (`unmarshallAV_M_eq` below). -/
def unmarshallDeep (value : Value) : Value :=
  if isAttributeValue value then unmarshallAV value
  else
    match value with
    | varr xs => varr (unmarshallList xs)
    | vobj fields =>
      match hm : getField fields "M" with
      | some m =>
        if truthy m && isAttributeValue (vobj [("M", m)]) then unmarshallMap m
        else if maybeMapOfAVs (vobj fields) then unmarshallMap (vobj fields)
        else vobj (buildObj (unmarshallFields fields))
      | none =>
        if maybeMapOfAVs (vobj fields) then unmarshallMap (vobj fields)
        else vobj (buildObj (unmarshallFields fields))
    | v => v
termination_by (sizeOf value, 2)
decreasing_by
  · apply Prod.Lex.right; omega
  · have h1 : sizeOf xs < sizeOf (Value.varr xs) := by simp
    apply Prod.Lex.left; omega
  · have h1 := getField_sizeOf_lt hm
    have h2 : sizeOf fields < sizeOf (Value.vobj fields) := by simp
    apply Prod.Lex.left; omega
  · apply Prod.Lex.right; omega
  · have h1 : sizeOf fields < sizeOf (Value.vobj fields) := by simp
    apply Prod.Lex.left; omega
  · apply Prod.Lex.right; omega
  · have h1 : sizeOf fields < sizeOf (Value.vobj fields) := by simp
    apply Prod.Lex.left; omega

/-- Elementwise `unmarshallDeep` over an array (`value.map(unmarshallDeep)`). -/
def unmarshallList : List Value → List Value
  | [] => []
  | x :: t => unmarshallDeep x :: unmarshallList t
termination_by l => (sizeOf l, 0)
decreasing_by
  all_goals apply Prod.Lex.left
  all_goals simp
  all_goals omega

/-- Fieldwise `unmarshallDeep` over object entries
(`out[k] = unmarshallDeep(v)` for each entry). -/
def unmarshallFields : List (String × Value) → List (String × Value)
  | [] => []
  | (k, v) :: t => (k, unmarshallDeep v) :: unmarshallFields t
termination_by l => (sizeOf l, 0)
decreasing_by
  all_goals apply Prod.Lex.left
  all_goals simp
  all_goals omega

end

/-! ### Type inference (source lines 150-173) -/

/-- Source: `inferScalar` — trim, empty unchanged, case-insensitive
null/true/false, else regex-guarded finite numeric conversion, else the
original string. -/
def inferScalar : Value → Value
  | vstr s =>
    let t := jsTrim s
    if t = "" then vstr s
    else
      let lower := jsToLower t
      if lower = "null" then vnull
      else if lower = "true" then vbool true
      else if lower = "false" then vbool false
      else if matchNumLit t.data then
        match jsStringToNumber t with
        | JsNum.val q => vnum (JsNum.val q)
        | _ => vstr s
      else vstr s
  | v => v

mutual

/-- Source: `coerceDeep` — rebuild arrays and objects with inference
applied to every element or field value; scalars go through
`inferScalar`. -/
def coerceDeep : Value → Value
  | varr xs => varr (coerceList xs)
  | vobj fields => vobj (buildObj (coerceFields fields))
  | v => inferScalar v

/-- Elementwise `coerceDeep` over an array payload. -/
def coerceList : List Value → List Value
  | [] => []
  | x :: t => coerceDeep x :: coerceList t

/-- Fieldwise `coerceDeep` over object entries. -/
def coerceFields : List (String × Value) → List (String × Value)
  | [] => []
  | (k, v) :: t => (k, coerceDeep v) :: coerceFields t

end

/-! ### Row-to-record conversion (source lines 175-198) -/

/-- The three conversion options destructured by `convertRowsToObjects`. -/
structure ConvertOptions where
  parseNestedJSON : Bool
  doUnmarshall : Bool
  doInferTypes : Bool
deriving Repr

/-- The per-cell body of the converter's `forEach`: optional embedded-
structure parsing (failure keeps the original string), optional
unmarshalling of truthy object-typed values, optional type inference. -/
def processCell (jsonParse : String → Option Value) (opts : ConvertOptions)
    (cell : String) : Value :=
  let v0 : Value := vstr cell
  let v1 :=
    if opts.parseNestedJSON && looksLikeJSON v0 then
      match jsonParse cell with
      | some p => p
      | none => v0
    else v0
  let v2 :=
    if opts.doUnmarshall && (truthy v1 && jsTypeofObject v1) then unmarshallDeep v1 else v1
  if opts.doInferTypes then coerceDeep v2 else v2

/-- The converter's header loop: assign each resolved header name its
processed cell, with the positional fallback `col_<idx+1>` for blank
headers. -/
def buildRecordGo (jsonParse : String → Option Value) (opts : ConvertOptions)
    (r : List String) : List String → ℕ → List (String × Value) → List (String × Value)
  | [], _, obj => obj
  | h :: rest, idx, obj =>
    let key := if h = "" then "col_" ++ toString (idx + 1) else h
    let v := processCell jsonParse opts (r.getD idx "")
    buildRecordGo jsonParse opts r rest (idx + 1) (jsSet obj key v)

/-- Build one record from one data row. -/
def buildRecord (jsonParse : String → Option Value) (opts : ConvertOptions)
    (headers : List String) (r : List String) : List (String × Value) :=
  buildRecordGo jsonParse opts r headers 0 []

/-- Source: `convertRowsToObjects` — trim the header row, drop data rows
whose every cell trims to empty, and build a record per surviving row. -/
def convertRowsToObjects (jsonParse : String → Option Value)
    (rows : List (List String)) (opts : ConvertOptions) : List (List (String × Value)) :=
  match rows with
  | [] => []
  | headerRow :: dataRows =>
    let headers := headerRow.map jsTrim
    (dataRows.filter fun r => r.any fun cell => decide (jsTrim cell ≠ "")).map
      fun r => buildRecord jsonParse opts headers r

/-! ### Tokenizer (source lines 6-50) -/

/-- The tokenizer's scanning state: finished rows, the current row, the
current field (as accumulated characters) and the in-quote flag. -/
structure ScanState where
  rows : List (List String)
  row : List String
  field : List Char
  inQuotes : Bool
deriving Repr

mutual

/-- The character loop of `parseCSV` outside a quoted span (the
`inQuotes == false` half of the source loop): a quote opens a span, the
delimiter ends the field, a line feed ends field and row, a carriage
return is dropped, anything else accumulates. -/
def scanOut (delimiter : Char) : List Char →
    List (List String) → List String → List Char → ScanState
  | [], rows, row, field => ⟨rows, row, field, false⟩
  | '"' :: rest, rows, row, field => scanIn delimiter rest rows row field
  | c :: rest, rows, row, field =>
    if c = delimiter then scanOut delimiter rest rows (row ++ [String.mk field]) []
    else if c = '\n' then scanOut delimiter rest (rows ++ [row ++ [String.mk field]]) [] []
    else if c = '\r' then scanOut delimiter rest rows row field
    else scanOut delimiter rest rows row (field ++ [c])

/-- The character loop of `parseCSV` inside a quoted span (the
`inQuotes == true` half of the source loop): a doubled quote unescapes
to one literal quote and consumes both characters (the source's
`text[i+1]` lookahead), a lone quote closes the span, anything else —
delimiters and newlines included — accumulates literally. -/
def scanIn (delimiter : Char) : List Char →
    List (List String) → List String → List Char → ScanState
  | [], rows, row, field => ⟨rows, row, field, true⟩
  | '"' :: '"' :: rest, rows, row, field => scanIn delimiter rest rows row (field ++ ['"'])
  | '"' :: rest, rows, row, field => scanOut delimiter rest rows row field
  | c :: rest, rows, row, field => scanIn delimiter rest rows row (field ++ [c])

end

/-- Source: `parseCSV` — scan the text and flush the trailing field/row
when a field is pending, a quote is unterminated, or the row is
non-empty. -/
def parseCSV (text : String) (delimiter : Char) : List (List String) :=
  let st := scanOut delimiter text.data [] [] []
  if st.field ≠ [] ∨ st.inQuotes ∨ st.row.length > 0 then
    st.rows ++ [st.row ++ [String.mk st.field]]
  else st.rows

/-! ### Delimiter detection (source lines 55-78) -/

/-- Source: the fixed candidate delimiter list. -/
def CANDIDATES : List Char := [',', '\t', ';', '|', ':']

/-- Split on the regex `\r?\n` (a lone carriage return does not split). -/
def splitLinesRN : List Char → List (List Char)
  | [] => [[]]
  | '\r' :: '\n' :: rest => [] :: splitLinesRN rest
  | '\n' :: rest => [] :: splitLinesRN rest
  | c :: rest =>
    match splitLinesRN rest with
    | [] => [[c]]
    | l :: ls => (c :: l) :: ls

/-- Truncate a sample to its first 20 lines, rejoined with line feeds
(source: `sample.split(/\r?\n/).slice(0, 20).join("\n")`). -/
def first20Lines (sample : String) : String :=
  String.mk (List.intercalate ['\n'] ((splitLinesRN sample.data).take 20))

/-- Rational sum of a list. -/
def sumQ (l : List ℚ) : ℚ := l.foldl (· + ·) 0

/-- The score a candidate delimiter earns on the truncated sample, or
`none` when it is disqualified (fewer than 2 rows, or a header row of at
most one column). -/
def candidateScore (text : String) (d : Char) : Option ℚ :=
  let rows := parseCSV text d
  if rows.length < 2 then none
  else
    let lens := rows.map List.length
    let headerCols := lens.headD 0
    if headerCols > 1 then
      let nonEmpty := (rows.drop 1).filter fun r => r.any fun c => decide (jsTrim c ≠ "")
      let matching := (nonEmpty.filter fun r => decide (r.length = headerCols)).length
      let uniqueLens := lens.dedup.length
      let lensQ := lens.map fun n => (n : ℚ)
      let mean := sumQ lensQ / (lens.length : ℚ)
      let variance := (lensQ.foldl (fun a c => a + (c - mean) ^ 2) 0) / (lens.length : ℚ)
      some ((matching : ℚ) * 100 - variance * 10 - ((uniqueLens : ℚ) - 1) * 5)
    else none

/-- One iteration of the detector's candidate loop: keep the incumbent
unless this candidate qualifies and strictly beats the best score so far
(`none` plays the role of the initial `-Infinity`). -/
def detectStep (text : String) (acc : Char × Option ℚ) (d : Char) : Char × Option ℚ :=
  match candidateScore text d with
  | none => acc
  | some score =>
    match acc.2 with
    | none => (d, some score)
    | some bestScore => if score > bestScore then (d, some score) else acc

/-- Source: `detectDelimiterByStructure` — fold the candidate loop over
the fixed candidate list, starting from comma. -/
def detectDelimiterByStructure (sample : String) : Char :=
  let text := first20Lines sample
  (CANDIDATES.foldl (detectStep text) (',', none)).1

/-! ### Object-assignment lemmas -/

/-- Map a function over the values of an association list. -/
def mapVals (f : Value → Value) (l : List (String × Value)) : List (String × Value) :=
  l.map fun kv => (kv.1, f kv.2)

theorem jsSet_of_not_mem {l : List (String × Value)} {k : String} {v : Value}
    (h : k ∉ l.map Prod.fst) : jsSet l k v = l ++ [(k, v)] := by
  induction l with
  | nil => rfl
  | cons kv t ih =>
    obtain ⟨k1, v1⟩ := kv
    simp only [List.map_cons, List.mem_cons] at h
    push_neg at h
    simp only [jsSet, List.cons_append]
    rw [if_neg (fun e => h.1 e.symm), ih h.2]

theorem keys_jsSet (l : List (String × Value)) (k : String) (v : Value) :
    (jsSet l k v).map Prod.fst =
      if k ∈ l.map Prod.fst then l.map Prod.fst else l.map Prod.fst ++ [k] := by
  induction l with
  | nil => simp [jsSet]
  | cons kv t ih =>
    obtain ⟨k1, v1⟩ := kv
    by_cases hk : k1 = k
    · subst hk
      simp [jsSet]
    · have hk2 : ¬k = k1 := fun e => hk e.symm
      simp only [jsSet, if_neg hk, List.map_cons, ih, List.mem_cons]
      by_cases hmem : k ∈ t.map Prod.fst
      · simp [hmem, hk2]
      · simp [hmem, hk2]

theorem nodup_keys_jsSet {l : List (String × Value)} {k : String} {v : Value}
    (h : (l.map Prod.fst).Nodup) : ((jsSet l k v).map Prod.fst).Nodup := by
  rw [keys_jsSet]
  split_ifs with hmem
  · exact h
  · rw [List.nodup_append]
    refine ⟨h, List.nodup_singleton k, ?_⟩
    intro a ha hb
    simp only [List.mem_singleton] at hb
    subst hb
    exact hmem ha

theorem mem_values_jsSet {l : List (String × Value)} {k : String} {v x : Value}
    (h : x ∈ (jsSet l k v).map Prod.snd) : x ∈ l.map Prod.snd ∨ x = v := by
  induction l with
  | nil => simpa [jsSet] using h
  | cons kv t ih =>
    obtain ⟨k1, v1⟩ := kv
    by_cases hk : k1 = k
    · subst hk
      have h2 : x = v ∨ x ∈ t.map Prod.snd := by
        simpa [jsSet] using h
      rcases h2 with h2 | h2
      · right; exact h2
      · left; simp [h2]
    · have h2 : x = v1 ∨ x ∈ (jsSet t k v).map Prod.snd := by
        simpa [jsSet, hk] using h
      rcases h2 with h2 | h2
      · left; simp [h2]
      · rcases ih h2 with h3 | h3
        · left; simp [h3]
        · right; exact h3

theorem foldl_jsSet_keys_nodup (l : List (String × Value))
    (acc : List (String × Value)) (h : (acc.map Prod.fst).Nodup) :
    (((l.foldl (fun a kv => jsSet a kv.1 kv.2) acc)).map Prod.fst).Nodup := by
  induction l generalizing acc with
  | nil => simpa using h
  | cons kv t ih => exact ih _ (nodup_keys_jsSet h)

theorem buildObj_keys_nodup (l : List (String × Value)) :
    ((buildObj l).map Prod.fst).Nodup :=
  foldl_jsSet_keys_nodup l [] (by simp)

theorem mem_values_foldl_jsSet {l acc : List (String × Value)} {x : Value}
    (h : x ∈ ((l.foldl (fun a kv => jsSet a kv.1 kv.2) acc)).map Prod.snd) :
    x ∈ acc.map Prod.snd ∨ x ∈ l.map Prod.snd := by
  induction l generalizing acc with
  | nil => left; simpa using h
  | cons kv t ih =>
    rcases ih h with h2 | h2
    · rcases mem_values_jsSet h2 with h3 | h3
      · left; exact h3
      · right; simp [h3]
    · right; simp [h2]

theorem mem_values_buildObj {l : List (String × Value)} {x : Value}
    (h : x ∈ (buildObj l).map Prod.snd) : x ∈ l.map Prod.snd := by
  rcases @mem_values_foldl_jsSet l [] x h with h2 | h2
  · simp at h2
  · exact h2

theorem foldl_jsSet_eq_append (l : List (String × Value)) (acc : List (String × Value))
    (h : (((acc ++ l).map Prod.fst)).Nodup) :
    l.foldl (fun a kv => jsSet a kv.1 kv.2) acc = acc ++ l := by
  induction l generalizing acc with
  | nil => simp
  | cons kv t ih =>
    obtain ⟨k, v⟩ := kv
    have hk : k ∉ acc.map Prod.fst := by
      intro hmem
      have h2 := h
      rw [List.map_append, List.nodup_append] at h2
      exact h2.2.2 hmem (by simp)
    have hstep : jsSet acc k v = acc ++ [(k, v)] := jsSet_of_not_mem hk
    simp only [List.foldl_cons, hstep]
    have hperm : (acc ++ [(k, v)]) ++ t = acc ++ ((k, v) :: t) := by simp
    rw [ih (acc ++ [(k, v)]) (by rw [hperm]; exact h), hperm]

theorem buildObj_eq_self {l : List (String × Value)} (h : (l.map Prod.fst).Nodup) :
    buildObj l = l :=
  foldl_jsSet_eq_append l [] (by simpa using h)

theorem jsSet_mapVals (f : Value → Value) (l : List (String × Value)) (k : String) (v : Value) :
    jsSet (mapVals f l) k (f v) = mapVals f (jsSet l k v) := by
  induction l with
  | nil => rfl
  | cons kv t ih =>
    obtain ⟨k1, v1⟩ := kv
    by_cases hk : k1 = k
    · subst hk
      simp [jsSet, mapVals]
    · simp [jsSet, mapVals, hk] at ih ⊢
      exact ih

theorem foldl_jsSet_mapVals (f : Value → Value) (l acc : List (String × Value)) :
    (mapVals f l).foldl (fun a kv => jsSet a kv.1 kv.2) (mapVals f acc) =
      mapVals f (l.foldl (fun a kv => jsSet a kv.1 kv.2) acc) := by
  induction l generalizing acc with
  | nil => rfl
  | cons kv t ih =>
    obtain ⟨k, v⟩ := kv
    simp only [mapVals, List.map_cons, List.foldl_cons]
    have h2 := jsSet_mapVals f acc k v
    simp only [mapVals] at h2 ih ⊢
    rw [h2, ih]

theorem buildObj_mapVals (f : Value → Value) (l : List (String × Value)) :
    buildObj (mapVals f l) = mapVals f (buildObj l) := by
  have h := foldl_jsSet_mapVals f l []
  simpa [buildObj, mapVals] using h


/-! ### Strong induction over values -/

theorem value_strongInd (P : Value → Prop)
    (step : ∀ v, (∀ w, sizeOf w < sizeOf v → P w) → P v) : ∀ v, P v := by
  have key : ∀ n (v : Value), sizeOf v < n → P v := by
    intro n
    induction n with
    | zero => intro v hv; omega
    | succ n ih => intro v _; exact step v fun w hw => ih w (by omega)
  exact fun v => key (sizeOf v + 1) v (by omega)

/-! ### Inference lemmas -/

theorem inferScalar_shapes (s : String) :
    inferScalar (vstr s) = vnull ∨ inferScalar (vstr s) = vbool true ∨
    inferScalar (vstr s) = vbool false ∨ (∃ q, inferScalar (vstr s) = vnum (JsNum.val q)) ∨
    inferScalar (vstr s) = vstr s := by
  simp only [inferScalar]
  split_ifs <;>
    first
      | simp
      | (split <;> simp)

theorem inferScalar_idem (v : Value) : inferScalar (inferScalar v) = inferScalar v := by
  cases v with
  | vstr s =>
    rcases inferScalar_shapes s with h | h | h | ⟨q, h⟩ | h <;> rw [h] <;>
      first
        | rfl
        | rw [h]
  | vnull => rfl
  | vbool b => rfl
  | vnum n => rfl
  | varr xs => rfl
  | vobj fields => rfl

theorem coerceFields_eq_mapVals (l : List (String × Value)) :
    coerceFields l = mapVals coerceDeep l := by
  induction l with
  | nil => rfl
  | cons kv t ih =>
    obtain ⟨k, v⟩ := kv
    simp [coerceFields, mapVals] at ih ⊢
    exact ih

theorem coerceList_eq_map (l : List Value) : coerceList l = l.map coerceDeep := by
  induction l with
  | nil => rfl
  | cons x t ih => simp [coerceList, ih]

/-- The type inferrer is idempotent on every value: a second pass can
never change anything, because `inferScalar` maps a string either to a
non-string scalar (fixed by inference) or to the very same string. -/
theorem coerceDeep_idem : ∀ v : Value, coerceDeep (coerceDeep v) = coerceDeep v := by
  apply value_strongInd
  intro v ih
  cases v with
  | vnull => rfl
  | vbool b => rfl
  | vnum n => rfl
  | vstr s =>
    have h1 : coerceDeep (vstr s) = inferScalar (vstr s) := rfl
    rcases inferScalar_shapes s with h | h | h | ⟨q, h⟩ | h <;>
      rw [h1, h] <;>
      first
        | rfl
        | exact h1.trans h
  | varr xs =>
    have hIH : ∀ x ∈ xs, coerceDeep (coerceDeep x) = coerceDeep x := fun x hx =>
      ih x (sizeOf_mem_lt_varr hx)
    simp only [coerceDeep, coerceList_eq_map, List.map_map]
    congr 1
    refine List.map_congr_left ?_
    intro x hx
    exact hIH x hx
  | vobj fields =>
    have hIH : ∀ kv ∈ fields, coerceDeep (coerceDeep kv.2) = coerceDeep kv.2 := fun kv hkv =>
      ih kv.2 (sizeOf_snd_lt_vobj hkv)
    simp only [coerceDeep, coerceFields_eq_mapVals]
    congr 1
    have hB : mapVals coerceDeep (buildObj (mapVals coerceDeep fields)) =
        buildObj (mapVals coerceDeep fields) := by
      have hpt : ∀ kv ∈ buildObj (mapVals coerceDeep fields),
          (fun kv => (kv.1, coerceDeep kv.2)) kv = id kv := by
        rintro ⟨k, w⟩ hkw
        have hw : w ∈ (buildObj (mapVals coerceDeep fields)).map Prod.snd :=
          List.mem_map_of_mem Prod.snd hkw
        have hw2 : w ∈ (mapVals coerceDeep fields).map Prod.snd := mem_values_buildObj hw
        simp only [mapVals, List.map_map, List.mem_map] at hw2
        obtain ⟨kv0, hkv0, hweq⟩ := hw2
        simp only [Function.comp_apply] at hweq
        have hfix : coerceDeep w = w := by
          rw [← hweq]
          exact hIH kv0 hkv0
        simp [hfix]
      have h4 := List.map_congr_left hpt
      simpa [mapVals, List.map_id] using h4
    calc buildObj (mapVals coerceDeep (buildObj (mapVals coerceDeep fields)))
        = buildObj (buildObj (mapVals coerceDeep fields)) := by rw [hB]
      _ = buildObj (mapVals coerceDeep fields) :=
          buildObj_eq_self (buildObj_keys_nodup _)


/-! ### Unmarshaller lemmas -/

theorem keys_mapVals (f : Value → Value) (l : List (String × Value)) :
    (mapVals f l).map Prod.fst = l.map Prod.fst := by
  induction l with
  | nil => rfl
  | cons kv t ih => simp [mapVals]

theorem unmarshallFields_eq_mapVals (l : List (String × Value)) :
    unmarshallFields l = mapVals unmarshallDeep l := by
  induction l with
  | nil => rw [unmarshallFields.eq_def]; rfl
  | cons kv t ih =>
    obtain ⟨k, v⟩ := kv
    rw [unmarshallFields.eq_def]
    simp only [mapVals, List.map_cons] at ih ⊢
    rw [ih]

theorem unmarshallList_eq_map (l : List Value) : unmarshallList l = l.map unmarshallDeep := by
  induction l with
  | nil => rw [unmarshallList.eq_def]; rfl
  | cons x t ih => rw [unmarshallList.eq_def]; simp only [List.map_cons]; rw [ih]

theorem unmarshallDeep_of_AV (v : Value) (h : isAttributeValue v = true) :
    unmarshallDeep v = unmarshallAV v := by
  rw [unmarshallDeep.eq_def, if_pos h]

/-- The source's `unmarshallAV({M: value.M})` call in the object branch
equals `unmarshallMap value.M`. -/
theorem unmarshallAV_M_eq (m : Value) : unmarshallAV (vobj [("M", m)]) = unmarshallMap m := by
  rw [unmarshallAV.eq_def]; simp


theorem unmarshallMap_vobj (fields : List (String × Value)) :
    unmarshallMap (vobj fields) = vobj (buildObj (unmarshallFields fields)) := by
  rw [unmarshallMap.eq_def]

theorem unmarshallMap_vstr (s : String) :
    unmarshallMap (vstr s) =
      vobj (buildObj (s.data.enum.map fun p => (toString p.1, vstr (String.mk [p.2])))) := by
  rw [unmarshallMap.eq_def]

theorem unmarshallFields_nil : unmarshallFields [] = [] := by
  rw [unmarshallFields.eq_def]

theorem unmarshallFields_cons (k : String) (v : Value) (t : List (String × Value)) :
    unmarshallFields ((k, v) :: t) = (k, unmarshallDeep v) :: unmarshallFields t := by
  rw [unmarshallFields.eq_def]

theorem unmarshallList_nil : unmarshallList [] = [] := by
  rw [unmarshallList.eq_def]

theorem unmarshallList_cons (x : Value) (t : List Value) :
    unmarshallList (x :: t) = unmarshallDeep x :: unmarshallList t := by
  rw [unmarshallList.eq_def]

theorem unmarshallDeep_vnull : unmarshallDeep vnull = vnull := by
  rw [unmarshallDeep.eq_def]; rfl

theorem unmarshallDeep_vbool (b : Bool) : unmarshallDeep (vbool b) = vbool b := by
  rw [unmarshallDeep.eq_def]; rfl

theorem unmarshallDeep_vnum (n : JsNum) : unmarshallDeep (vnum n) = vnum n := by
  rw [unmarshallDeep.eq_def]; rfl

theorem unmarshallDeep_vstr (s : String) : unmarshallDeep (vstr s) = vstr s := by
  rw [unmarshallDeep.eq_def]; rfl

theorem unmarshallDeep_varr (xs : List Value) :
    unmarshallDeep (varr xs) = varr (xs.map unmarshallDeep) := by
  have h : unmarshallDeep (varr xs) = varr (unmarshallList xs) := by
    rw [unmarshallDeep.eq_def]; rfl
  rw [h, unmarshallList_eq_map]

theorem isAttributeValue_varr (xs : List Value) : isAttributeValue (varr xs) = false := rfl

theorem isAttributeValue_of_two_keys {fields : List (String × Value)}
    (h : 2 ≤ fields.length) : isAttributeValue (vobj fields) = false := by
  match fields with
  | [] => simp at h
  | [kv] => simp at h
  | kv1 :: kv2 :: t => rfl

/-- Claim support: when the object is not an AttributeValue and carries a
truthy `M` entry, `unmarshallDeep` takes the `M` branch and returns
`unmarshallMap` of the payload alone. -/
theorem unmarshallDeep_M_branch (fields : List (String × Value)) (m : Value)
    (hAV : isAttributeValue (vobj fields) = false)
    (hm : getField fields "M" = some m) (ht : truthy m = true) :
    unmarshallDeep (vobj fields) = unmarshallMap m := by
  rw [unmarshallDeep.eq_def, if_neg (by simp [hAV])]
  have hMAV : isAttributeValue (vobj [("M", m)]) = true := by
    simp [isAttributeValue, AV_KEYS]
  split
  · rename_i xs heq
    cases heq
  · rename_i fields2 heq
    injection heq with he
    subst he
    split
    · rename_i m2 heq2
      rw [hm] at heq2
      injection heq2 with he2
      subst he2
      simp [ht, hMAV]
    · rename_i heq2
      rw [hm] at heq2
      cases heq2
  · rename_i v h1 h2
    exact absurd rfl (h2 fields)

/-- Claim support: the generic-object branch — no AttributeValue shape,
no truthy `M` entry, not a map of AttributeValues — rebuilds the object
with every value recursively unmarshalled, keys untouched. -/
theorem unmarshallDeep_generic (fields : List (String × Value))
    (hAV : isAttributeValue (vobj fields) = false)
    (hM : ∀ m, getField fields "M" = some m → truthy m = false)
    (hmap : maybeMapOfAVs (vobj fields) = false)
    (hnd : (fields.map Prod.fst).Nodup) :
    unmarshallDeep (vobj fields) = vobj (fields.map fun kv => (kv.1, unmarshallDeep kv.2)) := by
  rw [unmarshallDeep.eq_def, if_neg (by simp [hAV])]
  have hself : buildObj (unmarshallFields fields) = mapVals unmarshallDeep fields := by
    rw [unmarshallFields_eq_mapVals]
    exact buildObj_eq_self (by rw [keys_mapVals]; exact hnd)
  split
  · rename_i xs heq
    cases heq
  · rename_i fields2 heq
    injection heq with he
    subst he
    split
    · rename_i m2 heq2
      have ht := hM m2 heq2
      simp [ht, hmap, hself, mapVals]
    · rename_i heq2
      simp [hmap, hself, mapVals]
  · rename_i v h1 h2
    exact absurd rfl (h2 fields)

/-- Claim support: the implicit attribute-map branch — no AttributeValue
shape, no `M` key at all, and every value an AttributeValue — decodes
every entry as an AttributeValue. -/
theorem unmarshallDeep_mapOfAVs (fields : List (String × Value))
    (hAV : isAttributeValue (vobj fields) = false)
    (hM : getField fields "M" = none)
    (hne : fields ≠ [])
    (hall : ∀ kv ∈ fields, isAttributeValue kv.2 = true)
    (hnd : (fields.map Prod.fst).Nodup) :
    unmarshallDeep (vobj fields) = vobj (fields.map fun kv => (kv.1, unmarshallAV kv.2)) := by
  have hmap : maybeMapOfAVs (vobj fields) = true := by
    simp only [maybeMapOfAVs, jsValues]
    rw [if_neg (by simp [hne])]
    rw [List.all_eq_true]
    intro x hx
    simp only [List.mem_map] at hx
    obtain ⟨kv, hkv, hxv⟩ := hx
    rw [← hxv]
    exact hall kv hkv
  have hum : unmarshallMap (vobj fields) = vobj (buildObj (unmarshallFields fields)) := by
    rw [unmarshallMap.eq_def]
  rw [unmarshallDeep.eq_def, if_neg (by simp [hAV])]
  split
  · rename_i xs heq
    cases heq
  · rename_i fields2 heq
    injection heq with he
    subst he
    split
    · rename_i m2 heq2
      rw [hM] at heq2
      cases heq2
    · rename_i heq2
      rw [if_pos hmap, hum]
      rw [unmarshallFields_eq_mapVals]
      rw [buildObj_eq_self (by rw [keys_mapVals]; exact hnd)]
      have hpt : ∀ kv ∈ fields,
          (fun kv => ((kv : String × Value).1, unmarshallDeep kv.2)) kv =
            (fun kv => (kv.1, unmarshallAV kv.2)) kv := by
        intro kv hkv
        simp only
        rw [unmarshallDeep_of_AV _ (hall kv hkv)]
      simpa [mapVals] using List.map_congr_left hpt
  · rename_i v h1 h2
    exact absurd rfl (h2 fields)

/-! ### Tree predicates for the idempotence claim -/

mutual

/-- No subvalue of the tree is shaped like an AttributeValue. -/
def avFree : Value → Bool
  | varr xs => avFreeList xs
  | vobj fields => !isAttributeValue (vobj fields) && avFreeFields fields
  | _ => true

/-- Elementwise `avFree`. -/
def avFreeList : List Value → Bool
  | [] => true
  | x :: t => avFree x && avFreeList t

/-- Fieldwise `avFree`. -/
def avFreeFields : List (String × Value) → Bool
  | [] => true
  | kv :: t => avFree kv.2 && avFreeFields t

end

mutual

/-- No object anywhere in the tree has a truthy `M` entry. -/
def noTruthyM : Value → Bool
  | varr xs => noTruthyMList xs
  | vobj fields =>
    (match getField fields "M" with
     | some m => !truthy m
     | none => true) && noTruthyMFields fields
  | _ => true

/-- Elementwise `noTruthyM`. -/
def noTruthyMList : List Value → Bool
  | [] => true
  | x :: t => noTruthyM x && noTruthyMList t

/-- Fieldwise `noTruthyM`. -/
def noTruthyMFields : List (String × Value) → Bool
  | [] => true
  | kv :: t => noTruthyM kv.2 && noTruthyMFields t

end

mutual

/-- Every object in the tree has pairwise distinct keys — the invariant
every real JavaScript object satisfies. -/
def objKeysNodup : Value → Bool
  | varr xs => objKeysNodupList xs
  | vobj fields => decide (fields.map Prod.fst).Nodup && objKeysNodupFields fields
  | _ => true

/-- Elementwise `objKeysNodup`. -/
def objKeysNodupList : List Value → Bool
  | [] => true
  | x :: t => objKeysNodup x && objKeysNodupList t

/-- Fieldwise `objKeysNodup`. -/
def objKeysNodupFields : List (String × Value) → Bool
  | [] => true
  | kv :: t => objKeysNodup kv.2 && objKeysNodupFields t

end

mutual

/-- No string scalar in the tree looks numeric (matches the inference
regex after trimming). -/
def numStrFree : Value → Bool
  | vstr s => !matchNumLit (jsTrim s).data
  | varr xs => numStrFreeList xs
  | vobj fields => numStrFreeFields fields
  | _ => true

/-- Elementwise `numStrFree`. -/
def numStrFreeList : List Value → Bool
  | [] => true
  | x :: t => numStrFree x && numStrFreeList t

/-- Fieldwise `numStrFree`. -/
def numStrFreeFields : List (String × Value) → Bool
  | [] => true
  | kv :: t => numStrFree kv.2 && numStrFreeFields t

end

theorem avFree_not_AV {v : Value} (h : avFree v = true) : isAttributeValue v = false := by
  cases v with
  | vobj fields =>
    rw [avFree] at h
    rcases Bool.and_eq_true_iff.mp h with ⟨h1, _⟩
    simpa using h1
  | varr xs => rfl
  | vnull => rfl
  | vbool b => rfl
  | vnum n => rfl
  | vstr s => rfl

theorem avFreeFields_mem {fields : List (String × Value)} {kv : String × Value}
    (h : avFreeFields fields = true) (hm : kv ∈ fields) : avFree kv.2 = true := by
  induction fields with
  | nil => simp at hm
  | cons kv1 t ih =>
    rw [avFreeFields] at h
    rcases Bool.and_eq_true_iff.mp h with ⟨h1, h2⟩
    rcases List.mem_cons.mp hm with hm1 | hm1
    · subst hm1; exact h1
    · exact ih h2 hm1

theorem noTruthyMFields_mem {fields : List (String × Value)} {kv : String × Value}
    (h : noTruthyMFields fields = true) (hm : kv ∈ fields) : noTruthyM kv.2 = true := by
  induction fields with
  | nil => simp at hm
  | cons kv1 t ih =>
    rw [noTruthyMFields] at h
    rcases Bool.and_eq_true_iff.mp h with ⟨h1, h2⟩
    rcases List.mem_cons.mp hm with hm1 | hm1
    · subst hm1; exact h1
    · exact ih h2 hm1

theorem objKeysNodupFields_mem {fields : List (String × Value)} {kv : String × Value}
    (h : objKeysNodupFields fields = true) (hm : kv ∈ fields) : objKeysNodup kv.2 = true := by
  induction fields with
  | nil => simp at hm
  | cons kv1 t ih =>
    rw [objKeysNodupFields] at h
    rcases Bool.and_eq_true_iff.mp h with ⟨h1, h2⟩
    rcases List.mem_cons.mp hm with hm1 | hm1
    · subst hm1; exact h1
    · exact ih h2 hm1

theorem avFreeList_mem {xs : List Value} {x : Value}
    (h : avFreeList xs = true) (hm : x ∈ xs) : avFree x = true := by
  induction xs with
  | nil => simp at hm
  | cons x1 t ih =>
    rw [avFreeList] at h
    rcases Bool.and_eq_true_iff.mp h with ⟨h1, h2⟩
    rcases List.mem_cons.mp hm with hm1 | hm1
    · subst hm1; exact h1
    · exact ih h2 hm1

theorem noTruthyMList_mem {xs : List Value} {x : Value}
    (h : noTruthyMList xs = true) (hm : x ∈ xs) : noTruthyM x = true := by
  induction xs with
  | nil => simp at hm
  | cons x1 t ih =>
    rw [noTruthyMList] at h
    rcases Bool.and_eq_true_iff.mp h with ⟨h1, h2⟩
    rcases List.mem_cons.mp hm with hm1 | hm1
    · subst hm1; exact h1
    · exact ih h2 hm1

theorem objKeysNodupList_mem {xs : List Value} {x : Value}
    (h : objKeysNodupList xs = true) (hm : x ∈ xs) : objKeysNodup x = true := by
  induction xs with
  | nil => simp at hm
  | cons x1 t ih =>
    rw [objKeysNodupList] at h
    rcases Bool.and_eq_true_iff.mp h with ⟨h1, h2⟩
    rcases List.mem_cons.mp hm with hm1 | hm1
    · subst hm1; exact h1
    · exact ih h2 hm1

/-- On a tree with no AttributeValue shapes, no truthy `M` entries, and
well-formed (duplicate-free) object keys, the unmarshaller is the
identity. -/
theorem unmarshallDeep_id :
    ∀ v : Value, avFree v = true → noTruthyM v = true → objKeysNodup v = true →
      unmarshallDeep v = v := by
  apply value_strongInd
    (fun v => avFree v = true → noTruthyM v = true → objKeysNodup v = true →
      unmarshallDeep v = v)
  intro v ih hav hM hnd
  cases v with
  | vnull => exact unmarshallDeep_vnull
  | vbool b => exact unmarshallDeep_vbool b
  | vnum n => exact unmarshallDeep_vnum n
  | vstr s => exact unmarshallDeep_vstr s
  | varr xs =>
    rw [unmarshallDeep_varr xs]
    rw [avFree] at hav
    rw [noTruthyM] at hM
    rw [objKeysNodup] at hnd
    have hpt : ∀ x ∈ xs, unmarshallDeep x = id x := by
      intro x hx
      exact ih x (sizeOf_mem_lt_varr hx) (avFreeList_mem hav hx)
        (noTruthyMList_mem hM hx) (objKeysNodupList_mem hnd hx)
    rw [List.map_congr_left hpt, List.map_id]
  | vobj fields =>
    rw [avFree] at hav
    rcases Bool.and_eq_true_iff.mp hav with ⟨hav1, hav2⟩
    have hAV : isAttributeValue (vobj fields) = false := by simpa using hav1
    rw [noTruthyM] at hM
    rcases Bool.and_eq_true_iff.mp hM with ⟨hM1, hM2⟩
    rw [objKeysNodup] at hnd
    rcases Bool.and_eq_true_iff.mp hnd with ⟨hnd1, hnd2⟩
    have hndk : (fields.map Prod.fst).Nodup := by simpa using hnd1
    have hmap : maybeMapOfAVs (vobj fields) = false := by
      simp only [maybeMapOfAVs, jsValues]
      cases fields with
      | nil => simp
      | cons kv t =>
        rw [if_neg (by simp)]
        have hk : isAttributeValue kv.2 = false :=
          avFree_not_AV (avFreeFields_mem hav2 (List.mem_cons_self kv t))
        simp [hk]
    have hMcond : ∀ m, getField fields "M" = some m → truthy m = false := by
      intro m hm
      rw [hm] at hM1
      simpa using hM1
    rw [unmarshallDeep_generic fields hAV hMcond hmap hndk]
    have hpt : ∀ kv ∈ fields, (fun kv => ((kv : String × Value).1, unmarshallDeep kv.2)) kv =
        id kv := by
      intro kv hkv
      simp only [id]
      have h2 : unmarshallDeep kv.2 = kv.2 :=
        ih kv.2 (sizeOf_snd_lt_vobj hkv) (avFreeFields_mem hav2 hkv)
          (noTruthyMFields_mem hM2 hkv) (objKeysNodupFields_mem hnd2 hkv)
      rw [h2]
    rw [List.map_congr_left hpt, List.map_id]


/-! ### Tokenizer lemmas -/

/-- Inside an unterminated quoted span, every remaining character —
delimiters and newlines included — is accumulated literally into the
current field, and the scanner stays in-quote to the end. -/
theorem scanIn_no_quote (delimiter : Char) :
    ∀ (cs : List Char) (rows : List (List String)) (row : List String) (field : List Char),
      (∀ c ∈ cs, c ≠ '"') →
      scanIn delimiter cs rows row field = ⟨rows, row, field ++ cs, true⟩ := by
  intro cs
  induction cs with
  | nil => intro rows row field _; simp [scanIn]
  | cons c t ih =>
    intro rows row field hq
    have hc : c ≠ '"' := hq c (List.mem_cons_self c t)
    have hrest : ∀ x ∈ t, x ≠ '"' := fun x hx => hq x (List.mem_cons_of_mem c hx)
    rw [scanIn.eq_def]
    split
    · rename_i heq
      cases heq
    · rename_i rest heq
      injection heq with h1 h2
      exact absurd h1 hc
    · rename_i rest hne heq
      injection heq with h1 h2
      exact absurd h1 hc
    · rename_i c2 rest h1 h2 heq
      injection heq with e1 e2
      subst e1
      subst e2
      rw [ih _ _ _ hrest]
      simp

/-- When the scan ends inside a quoted span, `parseCSV` flushes the
in-progress field and row. -/
theorem parseCSV_flush_inQuotes (text : String) (delimiter : Char)
    (h : (scanOut delimiter text.data [] [] []).inQuotes = true) :
    parseCSV text delimiter =
      (scanOut delimiter text.data [] [] []).rows ++
        [(scanOut delimiter text.data [] [] []).row ++
          [String.mk (scanOut delimiter text.data [] [] []).field]] := by
  unfold parseCSV
  rw [if_pos (Or.inr (Or.inl (by rw [h])))]

/-! ### Detector specification and equivalence -/

/-- Specification-side list of qualifying candidates with their scores,
in candidate order (the claim's reading of the detector loop). -/
def qualifyingScores (sample : String) : List (Char × ℚ) :=
  CANDIDATES.filterMap fun d =>
    (candidateScore (first20Lines sample) d).map fun s => (d, s)

/-- Specification-side winner: the first-seen candidate whose score is
not strictly exceeded by any later one — i.e. the first-seen candidate
with the strictly highest score. -/
def firstBest : List (Char × ℚ) → Option Char
  | [] => none
  | (d, s) :: t => if t.all fun x => decide (x.2 ≤ s) then some d else firstBest t

/-- Specification-side detector, following the claim: score the
candidates in order over the first 20 lines, pick the first-seen
strictly-highest scorer, default to comma. -/
def detectSpec (sample : String) : Char := (firstBest (qualifyingScores sample)).getD ','

/-- One code-side loop step on an already-scored candidate. -/
def pickStep (acc : Char × Option ℚ) (x : Char × ℚ) : Char × Option ℚ :=
  match acc.2 with
  | none => (x.1, some x.2)
  | some bs => if x.2 > bs then (x.1, some x.2) else acc

theorem detectStep_eq_pickStep (text : String) (acc : Char × Option ℚ) (d : Char) :
    detectStep text acc d =
      match candidateScore text d with
      | none => acc
      | some s => pickStep acc (d, s) := by
  cases hcs : candidateScore text d with
  | none => simp [detectStep, hcs]
  | some s => cases hacc : acc.2 <;> simp [detectStep, hcs, pickStep, hacc]

theorem foldl_detectStep_eq (text : String) (cs : List Char) (acc : Char × Option ℚ) :
    cs.foldl (detectStep text) acc =
      (cs.filterMap fun d => (candidateScore text d).map fun s => (d, s)).foldl
        pickStep acc := by
  induction cs generalizing acc with
  | nil => rfl
  | cons d t ih =>
    rw [List.foldl_cons, detectStep_eq_pickStep]
    cases hcs : candidateScore text d with
    | none => simp only [List.filterMap_cons, hcs, Option.map_none]; exact ih _
    | some s => simp only [List.filterMap_cons, hcs, Option.map_some, List.foldl_cons]; exact ih _

theorem ne_nil_of_all_false {l : List (Char × ℚ)} {p : Char × ℚ → Bool}
    (h : l.all p = false) : l ≠ [] := by
  intro e; subst e; simp at h

theorem firstBest_isSome {l : List (Char × ℚ)} (h : l ≠ []) : ∃ c, firstBest l = some c := by
  induction l with
  | nil => exact absurd rfl h
  | cons x t ih =>
    obtain ⟨d, s⟩ := x
    rw [firstBest]
    by_cases hall : t.all fun x => decide (x.2 ≤ s)
    · exact ⟨d, by rw [if_pos hall]⟩
    · have ht : t ≠ [] := ne_nil_of_all_false (Bool.eq_false_iff.mpr hall)
      obtain ⟨c, hc⟩ := ih ht
      exact ⟨c, by rw [if_neg hall]; exact hc⟩

theorem foldl_pickStep_some (l : List (Char × ℚ)) (b : Char) (v : ℚ) :
    (l.foldl pickStep (b, some v)).1 =
      if l.all (fun x => decide (x.2 ≤ v)) then b else (firstBest l).getD b := by
  induction l generalizing b v with
  | nil => simp
  | cons x t ih =>
    obtain ⟨d, s⟩ := x
    by_cases hgt : s > v
    · have hstep : pickStep (b, some v) (d, s) = (d, some s) := by
        simp [pickStep, hgt]
      rw [List.foldl_cons, hstep, ih]
      have hall : (((d, s) :: t).all fun x => decide (x.2 ≤ v)) = false := by
        rw [List.all_cons]
        have hds : decide ((d, s).2 ≤ v) = false := by
          simp only [decide_eq_false_iff_not]
          exact not_le.mpr hgt
        rw [hds, Bool.false_and]
      rw [hall]
      rw [if_neg (show ¬(false = true) by simp)]
      have hfb : firstBest ((d, s) :: t) =
          if (t.all fun x => decide (x.2 ≤ s)) then some d else firstBest t := by
        rw [firstBest]
      rw [hfb]
      by_cases htall : (t.all fun x => decide (x.2 ≤ s)) = true
      · rw [if_pos htall, if_pos htall]
        rfl
      · rw [if_neg htall, if_neg htall]
        obtain ⟨c0, hc0⟩ :=
          firstBest_isSome (ne_nil_of_all_false (Bool.eq_false_iff.mpr htall))
        rw [hc0]
        rfl
    · have hsv : s ≤ v := not_lt.mp hgt
      have hstep : pickStep (b, some v) (d, s) = (b, some v) := by
        simp [pickStep, hgt]
      rw [List.foldl_cons, hstep, ih]
      have hallc : (((d, s) :: t).all fun x => decide (x.2 ≤ v)) =
          (t.all fun x => decide (x.2 ≤ v)) := by
        simp [List.all_cons, hsv]
      rw [hallc]
      by_cases htv : (t.all fun x => decide (x.2 ≤ v)) = true
      · rw [if_pos htv, if_pos htv]
      · rw [if_neg htv, if_neg htv]
        have hfb : firstBest ((d, s) :: t) =
            if (t.all fun x => decide (x.2 ≤ s)) then some d else firstBest t := by
          rw [firstBest]
        rw [hfb]
        have htns : ¬(t.all fun x => decide (x.2 ≤ s)) = true := by
          intro hts
          apply htv
          rw [List.all_eq_true] at hts ⊢
          intro x hx
          have h1 := hts x hx
          simp only [decide_eq_true_eq] at h1 ⊢
          exact le_trans h1 hsv
        rw [if_neg htns]

theorem foldl_pickStep_none (l : List (Char × ℚ)) (b : Char) :
    (l.foldl pickStep (b, none)).1 = (firstBest l).getD b := by
  cases l with
  | nil => rfl
  | cons x t =>
    obtain ⟨d, s⟩ := x
    have hstep : pickStep (b, none) (d, s) = (d, some s) := by simp [pickStep]
    rw [List.foldl_cons, hstep, foldl_pickStep_some]
    have hfb : firstBest ((d, s) :: t) =
        if (t.all fun x => decide (x.2 ≤ s)) then some d else firstBest t := by
      rw [firstBest]
    rw [hfb]
    by_cases htall : (t.all fun x => decide (x.2 ≤ s)) = true
    · rw [if_pos htall, if_pos htall]
      rfl
    · rw [if_neg htall, if_neg htall]
      obtain ⟨c0, hc0⟩ :=
        firstBest_isSome (ne_nil_of_all_false (Bool.eq_false_iff.mpr htall))
      rw [hc0]
      rfl

/-! ### Converter lemmas -/

/-- The resolved key for each header position from a given index on:
the trimmed header text, or the positional fallback for blanks. -/
def resolveNamesGo : List String → ℕ → List String
  | [], _ => []
  | h :: t, idx => (if h = "" then "col_" ++ toString (idx + 1) else h) :: resolveNamesGo t (idx + 1)

/-- The full resolved key sequence of a header row. -/
def resolvedNames (headerRow : List String) : List String :=
  resolveNamesGo (headerRow.map jsTrim) 0

theorem length_resolveNamesGo (l : List String) (idx : ℕ) :
    (resolveNamesGo l idx).length = l.length := by
  induction l generalizing idx with
  | nil => rfl
  | cons h t ih => simp [resolveNamesGo, ih]

theorem length_resolvedNames (headerRow : List String) :
    (resolvedNames headerRow).length = headerRow.length := by
  rw [resolvedNames, length_resolveNamesGo, List.length_map]

theorem buildRecordGo_keys (jsonParse : String → Option Value) (opts : ConvertOptions)
    (r : List String) :
    ∀ (hs : List String) (idx : ℕ) (obj : List (String × Value)),
      (obj.map Prod.fst ++ resolveNamesGo hs idx).Nodup →
      (buildRecordGo jsonParse opts r hs idx obj).map Prod.fst =
        obj.map Prod.fst ++ resolveNamesGo hs idx := by
  intro hs
  induction hs with
  | nil => intro idx obj _; simp [buildRecordGo, resolveNamesGo]
  | cons h t ih =>
    intro idx obj hnd
    rw [buildRecordGo]
    have hres : resolveNamesGo (h :: t) idx =
        (if h = "" then "col_" ++ toString (idx + 1) else h) :: resolveNamesGo t (idx + 1) :=
      rfl
    rw [hres] at hnd
    set key := if h = "" then "col_" ++ toString (idx + 1) else h with hkey
    have hknotin : key ∉ obj.map Prod.fst := by
      intro hmem
      rw [List.nodup_append] at hnd
      exact hnd.2.2 hmem (by simp)
    have hset : jsSet obj key (processCell jsonParse opts (r.getD idx "")) =
        obj ++ [(key, processCell jsonParse opts (r.getD idx ""))] :=
      jsSet_of_not_mem hknotin
    rw [hset, ih (idx + 1) _ ?_]
    · simp [hres]
    · have he : (obj ++ [(key, processCell jsonParse opts (r.getD idx ""))]).map Prod.fst ++
          resolveNamesGo t (idx + 1) =
          obj.map Prod.fst ++ key :: resolveNamesGo t (idx + 1) := by
        simp
      rw [he]
      exact hnd

/-- Every record the converter emits carries exactly the resolved header
keys, in header order, provided those resolved keys are pairwise
distinct. -/
theorem record_keys_eq (jsonParse : String → Option Value) (opts : ConvertOptions)
    (headerRow : List String) (dataRows : List (List String))
    (hnd : (resolvedNames headerRow).Nodup) :
    ∀ rec ∈ convertRowsToObjects jsonParse (headerRow :: dataRows) opts,
      rec.map Prod.fst = resolvedNames headerRow := by
  intro rec hrec
  simp only [convertRowsToObjects, List.mem_map] at hrec
  obtain ⟨r, _, hbuild⟩ := hrec
  rw [← hbuild]
  have h := buildRecordGo_keys jsonParse opts r (headerRow.map jsTrim) 0 []
    (by simpa [resolvedNames] using hnd)
  simpa [buildRecord, resolvedNames] using h

theorem convert_length (jsonParse : String → Option Value) (opts : ConvertOptions)
    (headerRow : List String) (dataRows : List (List String)) :
    (convertRowsToObjects jsonParse (headerRow :: dataRows) opts).length =
      (dataRows.filter fun r => r.any fun cell => decide (jsTrim cell ≠ "")).length := by
  simp [convertRowsToObjects]

/-! ### Embedded-structure field lemmas -/

theorem data_mk (l : List Char) : (String.mk l).data = l := rfl

theorem looksLikeJSON_first_char {s : String}
    (h : looksLikeJSON (vstr s) = true) :
    ∃ c rest, (jsTrim s).data = c :: rest ∧ (c = '{' ∨ c = '[' ∨ c = '"') := by
  rw [looksLikeJSON] at h
  rcases hds : (jsTrim s).data with _ | ⟨c, rest⟩
  · rw [hds] at h
    simp at h
  · rw [hds] at h
    refine ⟨c, rest, rfl, ?_⟩
    simp only [Bool.or_eq_true, decide_eq_true_eq, Bool.and_eq_true] at h
    tauto

theorem looksLikeJSON_inferScalar_id {s : String}
    (h : looksLikeJSON (vstr s) = true) : inferScalar (vstr s) = vstr s := by
  obtain ⟨c, rest, hds, hc⟩ := looksLikeJSON_first_char h
  have hne : ¬jsTrim s = "" := by
    intro he
    rw [he] at hds
    cases hds
  have hlow : (jsToLower (jsTrim s)).data = c.toLower :: rest.map Char.toLower := by
    rw [jsToLower, data_mk, hds, List.map_cons]
  have hlower_ne : ∀ w : String, w.data.headD ' ' ≠ c.toLower → jsToLower (jsTrim s) ≠ w := by
    intro w hw he
    rw [← he, hlow] at hw
    simp at hw
  have hnull : jsToLower (jsTrim s) ≠ "null" := by
    apply hlower_ne
    rcases hc with rfl | rfl | rfl <;> decide
  have htrue : jsToLower (jsTrim s) ≠ "true" := by
    apply hlower_ne
    rcases hc with rfl | rfl | rfl <;> decide
  have hfalse : jsToLower (jsTrim s) ≠ "false" := by
    apply hlower_ne
    rcases hc with rfl | rfl | rfl <;> decide
  have hnum : matchNumLit (jsTrim s).data = false := by
    rw [hds]
    rcases hc with rfl | rfl | rfl <;> rfl
  rw [inferScalar]
  simp only [hne, if_false, hnull, htrue, hfalse, hnum, Bool.false_eq_true]

theorem jsTypeofObject_vstr (s : String) : jsTypeofObject (vstr s) = false := rfl

/-- A field whose string looks like an embedded structure but fails to
parse comes through the whole per-cell pipeline unchanged: the parse
failure is swallowed, unmarshalling skips non-objects, and inference
leaves such strings alone. -/
theorem processCell_parse_failure (jsonParse : String → Option Value) (opts : ConvertOptions)
    (cell : String) (hlooks : looksLikeJSON (vstr cell) = true)
    (hfail : jsonParse cell = none) :
    processCell jsonParse opts cell = vstr cell := by
  obtain ⟨pn, du, di⟩ := opts
  have hcoe : coerceDeep (vstr cell) = vstr cell := by
    rw [coerceDeep]
    · exact looksLikeJSON_inferScalar_id hlooks
    · intro xs h
      cases h
    · intro fields h
      cases h
  cases pn <;> cases du <;> cases di <;>
    simp [processCell, hlooks, hfail, jsTypeofObject, hcoe]


/-! ### Claim theorems -/

/-- C1, counterexample to the claim as stated: the object
`{M: {}, a: "x"}` is not an AttributeValue, has no single `M` key
(it has two keys), and is not a map of AttributeValues, yet
`unmarshallDeep` does not preserve its keys: the truthy `M` entry
hijacks dispatch and every other key is dropped, returning `{}` rather
than the same-keyed object with recursively unmarshalled values. -/
theorem claim_c1_counterexample :
    isAttributeValue (vobj [("M", vobj []), ("a", vstr "x")]) = false ∧
    maybeMapOfAVs (vobj [("M", vobj []), ("a", vstr "x")]) = false ∧
    ([("M", vobj []), ("a", vstr "x")] : List (String × Value)).length = 2 ∧
    unmarshallDeep (vobj [("M", vobj []), ("a", vstr "x")]) = vobj [] ∧
    vobj ([] : List (String × Value)) ≠
      vobj [("M", unmarshallDeep (vobj [])), ("a", unmarshallDeep (vstr "x"))] := by
  refine ⟨rfl, rfl, rfl, ?_, ?_⟩
  · rw [unmarshallDeep_M_branch [("M", vobj []), ("a", vstr "x")] (vobj []) rfl rfl rfl]
    simp [unmarshallMap_vobj, unmarshallFields_nil, buildObj]
  · intro h
    injection h with he
    cases he

/-- C1 (amended): for every object (not array) Value that is not an
AttributeValue, has no truthy `M` entry, is not a non-empty map whose
every value is an AttributeValue, and (like every JavaScript object) has
duplicate-free keys, `unmarshallDeep` returns an object with exactly the
same keys, each entry's value recursively unmarshalled. -/
theorem claim_c1 (fields : List (String × Value))
    (hAV : isAttributeValue (vobj fields) = false)
    (hM : ∀ m, getField fields "M" = some m → truthy m = false)
    (hmap : maybeMapOfAVs (vobj fields) = false)
    (hnd : (fields.map Prod.fst).Nodup) :
    unmarshallDeep (vobj fields) = vobj (fields.map fun kv => (kv.1, unmarshallDeep kv.2)) ∧
    ∀ res, unmarshallDeep (vobj fields) = vobj res →
      res.map Prod.fst = fields.map Prod.fst := by
  refine ⟨unmarshallDeep_generic fields hAV hM hmap hnd, ?_⟩
  intro res h
  rw [unmarshallDeep_generic fields hAV hM hmap hnd] at h
  injection h with he
  rw [← he, List.map_map]
  rfl

/-- C1 witness: a concrete generic object goes through key-preserving
recursive unmarshalling. -/
theorem claim_c1_witness :
    unmarshallDeep (vobj [("a", vstr "x"), ("b", vobj [])]) =
      vobj [("a", vstr "x"), ("b", vobj [])] := by
  have h := (claim_c1 [("a", vstr "x"), ("b", vobj [])] rfl (fun m hm => by cases hm) rfl
    (by decide)).1
  rw [h]
  have h0 : unmarshallDeep (vobj ([] : List (String × Value))) = vobj [] := by
    have h1 := (claim_c1 [] rfl (fun m hm => by cases hm) rfl (by decide)).1
    rw [h1]
    rfl
  simp [unmarshallDeep_vstr, h0]

/-- C2, counterexample to the claim as stated: with the duplicate header
row `a,a`, the produced record has a single key (`a` is assigned twice,
last write wins), so its key-set size is 1 while the header row has
length 2. -/
theorem claim_c2_counterexample :
    convertRowsToObjects (fun _ => none) [["a", "a"], ["1", "2"]] ⟨false, false, false⟩ =
      [[("a", vstr "2")]] ∧
    ((convertRowsToObjects (fun _ => none) [["a", "a"], ["1", "2"]]
        ⟨false, false, false⟩).headD []).length = 1 ∧
    (["a", "a"] : List String).length = 2 :=
  ⟨rfl, rfl, rfl⟩

/-- C2 (amended): whenever the resolved header names — trimmed headers
with the positional fallback `col_<n>` for blanks — are pairwise
distinct (duplicate headers collide into one key, last write wins), each
record's keys are exactly the resolved names in header order, so its key
set has the size of the header row. -/
theorem claim_c2 (jsonParse : String → Option Value) (opts : ConvertOptions)
    (headerRow : List String) (dataRows : List (List String))
    (hnd : (resolvedNames headerRow).Nodup) :
    ∀ rec ∈ convertRowsToObjects jsonParse (headerRow :: dataRows) opts,
      rec.map Prod.fst = resolvedNames headerRow ∧ rec.length = headerRow.length := by
  intro rec hrec
  have hk := record_keys_eq jsonParse opts headerRow dataRows hnd rec hrec
  refine ⟨hk, ?_⟩
  have hl : (rec.map Prod.fst).length = rec.length := List.length_map rec Prod.fst
  rw [← hl, hk, length_resolvedNames]

/-- C2 witness: a header with a blank column resolves to `col_2` and the
record carries one key per header position. -/
theorem claim_c2_witness :
    ([("a", vstr "1"), ("col_2", vstr "2"), ("a2", vstr "3")] : List (String × Value)).map
        Prod.fst = resolvedNames ["a", "", "a2"] ∧
    ([("a", vstr "1"), ("col_2", vstr "2"), ("a2", vstr "3")] : List (String × Value)).length =
      (["a", "", "a2"] : List String).length := by
  have hmem : [("a", vstr "1"), ("col_2", vstr "2"), ("a2", vstr "3")] ∈
      convertRowsToObjects (fun _ => none) (["a", "", "a2"] :: [["1", "2", "3"]])
        ⟨false, false, false⟩ := by
    rw [show convertRowsToObjects (fun _ => none) (["a", "", "a2"] :: [["1", "2", "3"]])
        ⟨false, false, false⟩ =
        [[("a", vstr "1"), ("col_2", vstr "2"), ("a2", vstr "3")]] from rfl]
    exact List.mem_singleton_self _
  exact claim_c2 (fun _ => none) ⟨false, false, false⟩ ["a", "", "a2"] [["1", "2", "3"]]
    (by decide) _ hmem

/-- C3, counterexample to the claim as stated: the tree
`{M: {M: "x", b: "y"}, a: "z"}` contains no AttributeValue-shaped
subobject and no numeric-looking string, yet the unmarshaller is not
idempotent on it: the truthy `M` entries make the first pass return
`{M: "x", b: "y"}` and the second pass return `{0: "x"}`. -/
theorem claim_c3_counterexample :
    avFree (vobj [("M", vobj [("M", vstr "x"), ("b", vstr "y")]), ("a", vstr "z")]) = true ∧
    numStrFree (vobj [("M", vobj [("M", vstr "x"), ("b", vstr "y")]), ("a", vstr "z")]) = true ∧
    unmarshallDeep (vobj [("M", vobj [("M", vstr "x"), ("b", vstr "y")]), ("a", vstr "z")]) =
      vobj [("M", vstr "x"), ("b", vstr "y")] ∧
    unmarshallDeep (unmarshallDeep
        (vobj [("M", vobj [("M", vstr "x"), ("b", vstr "y")]), ("a", vstr "z")])) =
      vobj [("0", vstr "x")] ∧
    vobj [("0", vstr "x")] ≠ vobj [("M", vstr "x"), ("b", vstr "y")] := by
  have h1 : unmarshallDeep
      (vobj [("M", vobj [("M", vstr "x"), ("b", vstr "y")]), ("a", vstr "z")]) =
      vobj [("M", vstr "x"), ("b", vstr "y")] := by
    rw [unmarshallDeep_M_branch [("M", vobj [("M", vstr "x"), ("b", vstr "y")]), ("a", vstr "z")]
      (vobj [("M", vstr "x"), ("b", vstr "y")]) rfl rfl rfl]
    simp [unmarshallMap_vobj, unmarshallFields_nil, unmarshallFields_cons, unmarshallDeep_vstr,
      buildObj, jsSet]
  have h2 : unmarshallDeep (vobj [("M", vstr "x"), ("b", vstr "y")]) = vobj [("0", vstr "x")] := by
    rw [unmarshallDeep_M_branch [("M", vstr "x"), ("b", vstr "y")] (vstr "x") rfl rfl rfl]
    simp [unmarshallMap_vstr, buildObj, jsSet]
    decide
  refine ⟨rfl, rfl, h1, ?_, ?_⟩
  · rw [h1, h2]
  · intro h
    injection h with he
    injection he with hh ht
    injection hh with hk hv
    exact absurd hk (by decide)

/-- C3 (amended): for every Value tree free of AttributeValue shapes,
free of numeric-looking strings, additionally free of truthy `M`
entries, and with duplicate-free object keys throughout (the invariant
of real JavaScript objects), both passes are idempotent:
`infer ∘ infer = infer` and `unmarshal ∘ unmarshal = unmarshal`. -/
theorem claim_c3 (v : Value) (h1 : avFree v = true) (h2 : numStrFree v = true)
    (h3 : noTruthyM v = true) (h4 : objKeysNodup v = true) :
    coerceDeep (coerceDeep v) = coerceDeep v ∧
    unmarshallDeep (unmarshallDeep v) = unmarshallDeep v := by
  refine ⟨coerceDeep_idem v, ?_⟩
  rw [unmarshallDeep_id v h1 h3 h4, unmarshallDeep_id v h1 h3 h4]

/-- C3 witness: a concrete well-formed tree on which both passes are
idempotent. -/
theorem claim_c3_witness :
    coerceDeep (coerceDeep (vobj [("a", vstr "hi"), ("b", varr [vnull, vbool true])])) =
      coerceDeep (vobj [("a", vstr "hi"), ("b", varr [vnull, vbool true])]) ∧
    unmarshallDeep (unmarshallDeep (vobj [("a", vstr "hi"), ("b", varr [vnull, vbool true])])) =
      unmarshallDeep (vobj [("a", vstr "hi"), ("b", varr [vnull, vbool true])]) :=
  claim_c3 (vobj [("a", vstr "hi"), ("b", varr [vnull, vbool true])])
    (by decide) (by decide) (by decide) (by decide)

/-- C4, counterexample to the claim as stated: `{M: {N: "1"}}` is a
non-empty non-array object whose every value satisfies
`isAttributeValue`, yet `unmarshallDeep` does not unmarshal its entry as
an AttributeValue under its own key: the object is itself an
AttributeValue tagged `M`, so the result is `{N: "1"}`, not
`{M: 1}`. -/
theorem claim_c4_counterexample :
    maybeMapOfAVs (vobj [("M", vobj [("N", vstr "1")])]) = true ∧
    ([("M", vobj [("N", vstr "1")])] : List (String × Value)) ≠ [] ∧
    unmarshallDeep (vobj [("M", vobj [("N", vstr "1")])]) = vobj [("N", vstr "1")] ∧
    vobj [("N", vstr "1")] ≠ vobj [("M", unmarshallAV (vobj [("N", vstr "1")]))] := by
  refine ⟨rfl, by simp, ?_, ?_⟩
  · rw [unmarshallDeep_of_AV (vobj [("M", vobj [("N", vstr "1")])]) rfl, unmarshallAV_M_eq]
    simp [unmarshallMap_vobj, unmarshallFields_nil, unmarshallFields_cons, unmarshallDeep_vstr,
      buildObj, jsSet]
  · intro h
    injection h with he
    injection he with hh ht
    injection hh with hk hv
    exact absurd hk (by decide)

/-- C4 (amended): for every non-empty non-array object that is not
itself an AttributeValue, has no `M` key, has duplicate-free keys, and
whose every value satisfies `isAttributeValue`, `unmarshallDeep`
unmarshals every entry as an AttributeValue under its own key (the
implicit attribute-map, no wrapping `M` tag). -/
theorem claim_c4 (fields : List (String × Value)) (hne : fields ≠ [])
    (hAV : isAttributeValue (vobj fields) = false)
    (hM : getField fields "M" = none)
    (hall : ∀ kv ∈ fields, isAttributeValue kv.2 = true)
    (hnd : (fields.map Prod.fst).Nodup) :
    unmarshallDeep (vobj fields) = vobj (fields.map fun kv => (kv.1, unmarshallAV kv.2)) :=
  unmarshallDeep_mapOfAVs fields hAV hM hne hall hnd

/-- C4 witness: the claim's own example, `unmarshal({zip:{N:"1"}}) ==
{zip: 1}`. -/
theorem claim_c4_witness :
    unmarshallDeep (vobj [("zip", vobj [("N", vstr "1")])]) =
      vobj [("zip", vnum (JsNum.val 1))] := by
  have h := claim_c4 [("zip", vobj [("N", vstr "1")])] (by simp) rfl rfl
    (by intro kv hkv; simp only [List.mem_singleton] at hkv; rw [hkv]; rfl) (by decide)
  rw [h]
  have hn : jsToNumber (vstr "1") = JsNum.val 1 := by
    simp [jsToNumber, jsStringToNumber, jsTrim, trimChars, jsWs, parseJsDecimal, digitsToNat,
      parseExpPart, ratToJsNum, doubleLimit]
    norm_num
  have hAV1 : unmarshallAV (vobj [("N", vstr "1")]) = vnum (JsNum.val 1) := by
    rw [unmarshallAV.eq_def]
    simp [hn]
  simp [hAV1]

/-- C5 (confirmed): the detector evaluates the candidate delimiters
comma, tab, semicolon, pipe, colon in that fixed order over the first 20
lines of the sample, disqualifies candidates yielding fewer than 2 rows
or a header row of at most 1 column, scores each qualifying candidate as
`matching*100 - variance*10 - (uniqueLens-1)*5`, and returns the
first-seen candidate with the strictly highest score, defaulting to
comma when no candidate qualifies — i.e. it coincides with the
specification-side `detectSpec`. -/
theorem claim_c5 (sample : String) : detectDelimiterByStructure sample = detectSpec sample := by
  rw [detectDelimiterByStructure, detectSpec, qualifyingScores]
  rw [foldl_detectStep_eq, foldl_pickStep_none]

/-- C6 (confirmed): the tokenizer is a total function; on an
unterminated quoted span it treats every remaining character — the
delimiter and newlines included — as still-quoted field content, and at
end of input the in-progress field and row are flushed into the
result. -/
theorem claim_c6 :
    (∀ (delimiter : Char) (cs : List Char) (rows : List (List String)) (row : List String)
        (field : List Char),
      (∀ c ∈ cs, c ≠ '"') →
      scanIn delimiter cs rows row field = ⟨rows, row, field ++ cs, true⟩) ∧
    (∀ (text : String) (delimiter : Char),
      (scanOut delimiter text.data [] [] []).inQuotes = true →
      parseCSV text delimiter =
        (scanOut delimiter text.data [] [] []).rows ++
          [(scanOut delimiter text.data [] [] []).row ++
            [String.mk (scanOut delimiter text.data [] [] []).field]]) :=
  ⟨scanIn_no_quote, parseCSV_flush_inQuotes⟩

/-- C6 witness: inside an unterminated quote a delimiter is accumulated
literally, and the dangling field and row are flushed at end of input. -/
theorem claim_c6_witness :
    scanIn ',' ['b', ','] [] ["a"] ['x'] =
      ⟨[], ["a"], ['x', 'b', ','], true⟩ ∧
    parseCSV "a,\"bc" ',' = [["a", "bc"]] := by
  constructor
  · exact claim_c6.1 ',' ['b', ','] [] ["a"] ['x'] (by decide)
  · exact (claim_c6.2 "a,\"bc" ',' rfl).trans rfl

/-- C7 (confirmed): `inferScalar` trims the string; an empty trimmed
form returns the original string; a case-insensitive match against
null/true/false yields the corresponding constant; otherwise a string
matching the numeric pattern that converts to a finite number yields
that number, and anything else returns the original untrimmed string;
in particular "null", "true", "false", "123.45" and "" map to null,
true, false, 123.45 and "". -/
theorem claim_c7 :
    (∀ s : String, jsTrim s = "" → inferScalar (vstr s) = vstr s) ∧
    (∀ s : String, jsToLower (jsTrim s) = "null" → jsTrim s ≠ "" →
      inferScalar (vstr s) = vnull) ∧
    (∀ s : String, jsToLower (jsTrim s) = "true" → jsTrim s ≠ "" →
      inferScalar (vstr s) = vbool true) ∧
    (∀ s : String, jsToLower (jsTrim s) = "false" → jsTrim s ≠ "" →
      inferScalar (vstr s) = vbool false) ∧
    (∀ (s : String) (q : ℚ), jsTrim s ≠ "" →
      jsToLower (jsTrim s) ≠ "null" → jsToLower (jsTrim s) ≠ "true" →
      jsToLower (jsTrim s) ≠ "false" →
      matchNumLit (jsTrim s).data = true →
      jsStringToNumber (jsTrim s) = JsNum.val q →
      inferScalar (vstr s) = vnum (JsNum.val q)) ∧
    (∀ s : String, jsTrim s ≠ "" →
      jsToLower (jsTrim s) ≠ "null" → jsToLower (jsTrim s) ≠ "true" →
      jsToLower (jsTrim s) ≠ "false" →
      matchNumLit (jsTrim s).data = true →
      (∀ q, jsStringToNumber (jsTrim s) ≠ JsNum.val q) →
      inferScalar (vstr s) = vstr s) ∧
    (∀ s : String, jsTrim s ≠ "" →
      jsToLower (jsTrim s) ≠ "null" → jsToLower (jsTrim s) ≠ "true" →
      jsToLower (jsTrim s) ≠ "false" →
      matchNumLit (jsTrim s).data = false →
      inferScalar (vstr s) = vstr s) ∧
    inferScalar (vstr "null") = vnull ∧
    inferScalar (vstr "true") = vbool true ∧
    inferScalar (vstr "false") = vbool false ∧
    inferScalar (vstr "123.45") = vnum (JsNum.val (12345 / 100)) ∧
    inferScalar (vstr "") = vstr "" := by
  refine ⟨?_, ?_, ?_, ?_, ?_, ?_, ?_, rfl, rfl, rfl, ?_, rfl⟩
  · intro s h
    rw [inferScalar]
    simp [h]
  · intro s h2 h1
    rw [inferScalar]
    simp [h1, h2]
  · intro s h2 h1
    rw [inferScalar]
    simp [h1, h2]
  · intro s h2 h1
    rw [inferScalar]
    simp [h1, h2]
  · intro s q h1 h2 h3 h4 h5 h6
    rw [inferScalar]
    simp [h1, h2, h3, h4, h5, h6]
  · intro s h1 h2 h3 h4 h5 h6
    rw [inferScalar]
    simp only [h1, h2, h3, h4, h5, if_false, if_true]
  · intro s h1 h2 h3 h4 h5
    rw [inferScalar]
    simp [h1, h2, h3, h4, h5]
  · have hn : jsStringToNumber "123.45" = JsNum.val (12345 / 100) := by
      simp [jsStringToNumber, jsTrim, trimChars, jsWs, parseJsDecimal, digitsToNat,
        parseExpPart, ratToJsNum, doubleLimit]
      norm_num
    rw [inferScalar]
    rw [show jsTrim "123.45" = "123.45" from by decide]
    rw [hn]
    rw [if_neg (by decide), if_neg (by decide), if_neg (by decide), if_neg (by decide),
      if_pos (by decide)]

/-- C7 witness: case-insensitive `NULL` with surrounding blanks infers
to null, and a scientific-notation literal infers to its numeric
value. -/
theorem claim_c7_witness :
    inferScalar (vstr " NULL ") = vnull ∧ inferScalar (vstr "3e2") = vnum (JsNum.val 300) := by
  constructor
  · exact claim_c7.2.1 " NULL " (by decide) (by decide)
  · refine claim_c7.2.2.2.2.1 "3e2" 300 (by decide) (by decide) (by decide) (by decide)
      (by decide) ?_
    rw [show jsTrim "3e2" = "3e2" from by decide]
    simp [jsStringToNumber, jsTrim, trimChars, jsWs, parseJsDecimal, digitsToNat,
      parseExpPart, ratToJsNum, doubleLimit]
    norm_num

/-- C8 (confirmed): with embedded parsing enabled, a field that looks
like an embedded structure but fails to parse keeps its original string
value — the failure is absorbed at that single field (unmarshalling
skips non-objects and inference leaves such strings unchanged) — and the
conversion of the surrounding table always yields exactly one record per
retained data row, so no parse failure can abort a row or the table. -/
theorem claim_c8 :
    (∀ (jsonParse : String → Option Value) (opts : ConvertOptions) (cell : String),
      looksLikeJSON (vstr cell) = true → jsonParse cell = none →
      processCell jsonParse opts cell = vstr cell) ∧
    (∀ (jsonParse : String → Option Value) (opts : ConvertOptions)
        (headerRow : List String) (dataRows : List (List String)),
      (convertRowsToObjects jsonParse (headerRow :: dataRows) opts).length =
        (dataRows.filter fun r => r.any fun cell => decide (jsTrim cell ≠ "")).length) :=
  ⟨processCell_parse_failure, convert_length⟩

/-- C8 witness: a malformed embedded-looking field survives the full
option pipeline unchanged, and a table with one malformed field still
produces one record per retained row. -/
theorem claim_c8_witness :
    processCell (fun _ => none) ⟨true, true, true⟩ "\x7boops" = vstr "\x7boops" ∧
    (convertRowsToObjects (fun _ => none) [["a"], ["\x7boops"], ["", " "]]
        ⟨true, true, true⟩).length = 1 := by
  constructor
  · exact claim_c8.1 (fun _ => none) ⟨true, true, true⟩ "\x7boops" (by decide) rfl
  · exact (claim_c8.2 (fun _ => none) ⟨true, true, true⟩ ["a"] [["\x7boops"], ["", " "]]).trans rfl

/-- C9 (confirmed): the spec writes the quote-escaping example as the
quoted literal `"id,name\n1,""Alice, A.""`, whose doubled quotes stand
for the single quote characters of the raw text `id,name\n1,"Alice, A."`;
tokenizing that raw text with delimiter comma yields the literal string
`Alice, A.` as field 2 of row 2, the comma inside the quoted span
preserved.  The companion equation shows the in-quote doubled-quote rule
itself: `a,"b""c"` tokenizes to the field `b"c`, the doubled quote
collapsed to one literal quote. -/
theorem claim_c9 :
    parseCSV "id,name\n1,\"Alice, A.\"" ',' = [["id", "name"], ["1", "Alice, A."]] ∧
    parseCSV "a,\"b\"\"c\"" ',' = [["a", "b\"c"]] :=
  ⟨rfl, rfl⟩

/-- C10 (confirmed): for every non-array object with two or more keys
whose `M` entry is truthy, `unmarshallDeep` returns exactly the
unmarshalling of the `M` payload as an attribute map
(`unmarshallMap`), silently discarding every other key. -/
theorem claim_c10 (fields : List (String × Value)) (m : Value)
    (hlen : 2 ≤ fields.length) (hm : getField fields "M" = some m) (ht : truthy m = true) :
    unmarshallDeep (vobj fields) = unmarshallMap m :=
  unmarshallDeep_M_branch fields m (isAttributeValue_of_two_keys hlen) hm ht

/-- C10 witness: `{M: {S: "q"}, a: "y"}` unmarshals to the attribute-map
unmarshalling of `{S: "q"}` alone; the key `a` is discarded. -/
theorem claim_c10_witness :
    unmarshallDeep (vobj [("M", vobj [("S", vstr "q")]), ("a", vstr "y")]) =
      unmarshallMap (vobj [("S", vstr "q")]) :=
  claim_c10 [("M", vobj [("S", vstr "q")]), ("a", vstr "y")] (vobj [("S", vstr "q")])
    (by decide) rfl rfl


end CsvJson
